import Mathlib

/-!
# Verification of the `dynamic` reflection / change-notification library

A shallow embedding, in Lean 4, of the core algorithms of the `dynamic`
C++ library (path parsing, hierarchical listener propagation, scalar
cell mutation with its recursion guard, dynamic array and map
containers), together with proofs and refutations of the behavioural
claims made about them.

Strings are modelled as `List Char` (a byte/character sequence), and
machine values stored in scalar cells as `Int` (the stored payloads are
never overflowed by the operations modelled here; the library's cells
store them verbatim).  Listener callbacks are identified by opaque
numeric identifiers and notification is modelled as an explicit event
log, which is what the C++ side effects of invoking the callbacks
amount to.  Expired weak-reference listeners are purged before every
notification pass in the source; the models below carry only the live
listeners, which is the state after that purge.
-/

namespace Dynamic

/-- A path segment / field name: models `std::string`. -/
abbrev Seg : Type := List Char

/-- A path: models `ID`, which `is-a std::vector<std::string>`. -/
abbrev ID : Type := List Seg

/-- `ID::toString` (dynamic.cpp): streams every segment followed by `'/'`
(`std::ostream_iterator<std::string>(ss, "/")`) and then drops the last
character (`substr(0, size() - 1)`); on an empty path the result is the
empty string. -/
def ID.toString (p : ID) : Seg :=
  (List.flatten (p.map (fun s => s ++ ['/']))).dropLast

/-- `ID::fromString` (dynamic.cpp): repeated `std::getline(ss, line, '/')`.
`getline` yields the characters up to the next `'/'` or end of input,
and fails (ending the loop) when nothing remains — so the empty string
yields no segments and a trailing `'/'` yields no trailing empty
segment. -/
def ID.fromString : Seg → ID
  | [] => []
  | c :: rest =>
    if c = '/' then [] :: ID.fromString rest
    else
      match ID.fromString rest with
      | [] => [[c]]
      | s :: ss => (c :: s) :: ss

/-- Does the string start with a slash?  (A "leading slash".) -/
def firstIsSlash : Seg → Bool
  | [] => false
  | c :: _ => c == '/'

/-- Does the string end with a slash?  (A "trailing slash".) -/
def lastIsSlash : Seg → Bool
  | [] => false
  | [c] => c == '/'
  | _ :: c :: rest => lastIsSlash (c :: rest)

/-- Does the string contain two adjacent slashes?  (A "doubled slash".) -/
def hasDoubleSlash : Seg → Bool
  | c :: d :: rest => (c == '/' && d == '/') || hasDoubleSlash (d :: rest)
  | _ => false

/-! ## The value tree and `Object::getchild`

`DVal` is the type-erased value universe seen through the `Value`
interface: the `Invalid` sentinel, an opaque scalar cell
(`Fundamental<T>` for an opaque `T`; the payload is abstracted to
`Int`), and a structured node (`Object`: a `Record`, `Array` or `Map`)
presented, as `type_erased_fields()` presents it, as its ordered list
of named children. -/

inductive DVal : Type where
  | invalid : DVal
  | prim : Int → DVal
  | node : List (Seg × DVal) → DVal

/-- `Value::isStruct`: true exactly for `Object`s (structured nodes). -/
def DVal.isStruct : DVal → Bool
  | .node _ => true
  | _ => false

/-- `Value::isValid`: false exactly for the `Invalid` sentinel. -/
def DVal.isValid : DVal → Bool
  | .invalid => false
  | _ => true

/-- `Object::operator()(std::string_view)` (dynamic.tpp 157-169): linear
`find_if` over `type_erased_fields()` comparing each child's `name()`
with the requested name; yields `Value::kInvalid` when no child
matches.  A non-structured value has no children, so lookup on it also
yields the sentinel. -/
def DVal.child : DVal → Seg → DVal
  | .node fields, nm =>
    match fields.find? (fun f => f.1 == nm) with
    | some f => f.2
    | none => .invalid
  | _, _ => .invalid

/-- `Object::getchild` (dynamic.tpp 171-195): an empty path returns the
receiver; otherwise the front segment is popped and looked up with
`operator()`; if segments remain, a non-structured intermediate result
fails with the sentinel, and a structured one is recursed into. -/
def DVal.getchild (v : DVal) : ID → DVal
  | [] => v
  | nm :: rest =>
    let fld := v.child nm
    if rest ≠ [] then
      if ¬ fld.isStruct then .invalid
      else fld.getchild rest
    else fld

/-- Specification-side walk, following the spec's words: "walks the path
one segment at a time via `child(name)`", with an empty path denoting
the receiver itself.  Compared against `DVal.getchild` (which
short-circuits on non-structured intermediates) in claim C7. -/
def DVal.walkSpec (v : DVal) : ID → DVal
  | [] => v
  | nm :: rest => (v.child nm).walkSpec rest

/-! ## Child-listener propagation (`Object::callChildListeners`)

Every `Value` holds one non-owning `parent` back-pointer, so the
ancestors of a node form a finite chain.  A `Frame` is one ancestor as
the propagation code sees it: an identity tag (standing for the C++
object's address, used to report `parentOfChangedValue`), the field
name under which the ancestor itself is known to *its* parent
(`this->name()`), and the live child listeners registered on it. -/

/-- `Object::Operation`: the operation kind reported to listeners. -/
inductive Op : Type where
  | add : Op
  | remove : Op
  | modify : Op
deriving DecidableEq

structure Frame : Type where
  tag : Nat
  name : Seg
  listeners : List Nat
deriving DecidableEq

instance : Inhabited Frame := ⟨⟨0, [], []⟩⟩

/-- The four arguments a child listener is invoked with:
`(ID const&, Operation, Object const& parentOfChangedValue, Value const& newValue)`,
tagged with the identity of the listener invoked.  The parent is
recorded by its tag and the new value by its payload. -/
structure CEvent : Type where
  listener : Nat
  id : ID
  op : Op
  parent : Nat
  val : Int
deriving DecidableEq

/-- `Object::callChildListeners` (dynamic.cpp 84-97): invoke every (live)
child listener of this node with the accumulated path, then, if a
parent exists, prepend this node's own field name to the path and
recurse with the originating operation, parent-of-changed-value and
new value unchanged.  The chain lists this node first, the root last;
the returned list is the full sequence of listener invocations. -/
def callChildListeners : List Frame → ID → Op → Nat → Int → List CEvent
  | [], _, _, _, _ => []
  | f :: rest, id, op, p, v =>
    f.listeners.map (fun l => ⟨l, id, op, p, v⟩)
      ++ callChildListeners rest (f.name :: id) op p v

/-- The path with which the `k`-th ancestor's listeners are invoked:
the names of the `k` nodes below it, innermost last, prepended to the
originating path. -/
def accPath (names : List Seg) (k : Nat) (id : ID) : ID :=
  (names.take k).reverse ++ id

/-- `Fundamental<T>::callListeners` (dynamic.tpp 373-394): invoke each
(live) direct value listener with the new value, then, if a parent is
set, hand `callChildListeners` a one-segment path holding this cell's
own field name, operation `modify`, the *direct parent* as
`parentOfChangedValue`, and a detached copy of the new value.  The
first component of the result is the direct-listener invocations, the
second the child-listener invocations. -/
def fundamentalCallListeners (selfName : Seg) (valueListeners : List Nat)
    (chain : List Frame) (v : Int) : List (Nat × Int) × List CEvent :=
  (valueListeners.map (fun l => (l, v)),
    match chain with
    | [] => []
    | pf :: rest => callChildListeners (pf :: rest) [selfName] .modify pf.tag v)

/-! ## The scalar cell (`Fundamental<T>`) and its write paths

A cell is its stored payload, its own field name, its live direct
value listeners, and its ancestor chain.  `disabler` is the value the
thread-local `Value::recursiveListenerDisabler` holds when the write
is entered; each write increments it strictly around the assignment to
`underlying` and decrements it again on scope exit, so its value is the
same before and after the call and the model leaves it in the state.
The payload is `Int`, standing for any non-floating scalar kind, whose
unchanged-comparison is `operator==`. -/

structure CellSt : Type where
  value : Int
  name : Seg
  listeners : List Nat
  chain : List Frame
  disabler : Nat
deriving DecidableEq

/-- The notification pass a cell write performs when it is allowed to:
`Fundamental<T>::callListeners` on this cell. -/
def cellNotify (c : CellSt) (v : Int) : List (Nat × Int) × List CEvent :=
  fundamentalCallListeners c.name c.listeners c.chain v

/-- `Fundamental<T>::set(T const&)` (dynamic.tpp 246-270), also reached by
`operator=(T const&)` and `operator=(Fundamental const&)`: return
immediately when the new value compares equal to the current one;
otherwise notify (only when the recursion disabler is at zero) and then
write the payload under an incremented-then-restored disabler.
Returns the new cell state and the invocations performed. -/
def set_copy (c : CellSt) (v : Int) : CellSt × (List (Nat × Int) × List CEvent) :=
  if c.value = v then (c, ([], []))
  else
    let evs := if c.disabler = 0 then cellNotify c v else ([], [])
    ({ c with value := v }, evs)

/-- `Fundamental<T>::set(T&&)` (dynamic.tpp 272-285), also reached by
`operator=(Fundamental&&)`: performs *no* unchanged-comparison — it
notifies (when the disabler is at zero) and writes unconditionally. -/
def set_move (c : CellSt) (v : Int) : CellSt × (List (Nat × Int) × List CEvent) :=
  let evs := if c.disabler = 0 then cellNotify c v else ([], [])
  ({ c with value := v }, evs)

/-- `Fundamental<T>::mutate` (dynamic.tpp 287-307): runs the lambda on a
copy of the payload and, exactly when the copy now differs from the
stored value under `operator!=` (an exact comparison for every payload
kind, floating point included), notifies and writes it back. -/
def mutate (c : CellSt) (f : Int → Int) : CellSt × (List (Nat × Int) × List CEvent) :=
  let copy := f c.value
  if copy ≠ c.value then
    let evs := if c.disabler = 0 then cellNotify c copy else ([], [])
    ({ c with value := copy }, evs)
  else (c, ([], []))

/-- A floating-point cell: the payload is modelled as a rational and the
`set(T const&)` guard `std::fabs(underlying - newValue) <= epsilon`
as `|value - v| ≤ eps` with `eps` the type's epsilon constant.  Only
the direct listeners are carried; propagation is as for `CellSt`. -/
structure FCellSt : Type where
  value : ℚ
  listeners : List Nat
  disabler : Nat

/-- `Fundamental<T>::set(T const&)` for `T` = `float`/`double`
(dynamic.tpp 249-253): skip everything when the new value is within
epsilon of the current one; otherwise notify (disabler at zero) and
write. -/
def fset_copy (eps : ℚ) (c : FCellSt) (v : ℚ) : FCellSt × List (Nat × ℚ) :=
  if |c.value - v| ≤ eps then (c, [])
  else
    let evs := if c.disabler = 0 then c.listeners.map (fun l => (l, v)) else []
    ({ c with value := v }, evs)

/-! ## Reentrant writes and the recursion disabler

To settle what the thread-scoped `recursiveListenerDisabler` actually
suppresses, the write path is run operationally over a two-cell world
whose listeners are themselves little programs that may write a cell.
`log` records every listener invocation as
(cell listened on, listener position, reported new value).  `fuel`
bounds the call depth; every claim below is settled at a depth the
concrete runs never exhaust. -/

inductive LProg : Type where
  | nop : LProg
  | wr : Bool → Int → LProg
deriving DecidableEq

structure W2 : Type where
  v0 : Int
  v1 : Int
  ls0 : List LProg
  ls1 : List LProg
  dis : Nat
  log : List (Bool × Nat × Int)
deriving DecidableEq

def W2.get (w : W2) (c : Bool) : Int := if c then w.v1 else w.v0

def W2.put (w : W2) (c : Bool) (v : Int) : W2 :=
  if c then { w with v1 := v } else { w with v0 := v }

def W2.progs (w : W2) (c : Bool) : List LProg := if c then w.ls1 else w.ls0

/-- One notification pass: each listener of cell `c` is invoked in
order (logged), and a `wr` listener body performs a nested write
through `setter` (the one-level-less-fuel write entry point). -/
def w2run (setter : W2 → Bool → Int → W2) :
    W2 → List LProg → Bool → Int → Nat → W2
  | w, [], _, _, _ => w
  | w, p :: rest, c, v, i =>
    let w1 := { w with log := w.log ++ [(c, i, v)] }
    let w2 :=
      match p with
      | .nop => w1
      | .wr tgt nv => setter w1 tgt nv
    w2run setter w2 rest c v (i + 1)

/-- `Fundamental<T>::set(T const&)` run operationally (dynamic.tpp
246-270), in source order: (1) return if unchanged; (2) if the
disabler is zero, invoke the listeners — *before* the disabler is
touched; (3) increment the disabler, assign `underlying`, decrement on
scope exit.  The assignment of an opaque payload runs no code, so step
(3) leaves the disabler as found. -/
def w2set : Nat → W2 → Bool → Int → W2
  | 0, w, _, _ => w
  | fuel + 1, w, c, v =>
    if w.get c = v then w
    else
      let w1 := if w.dis = 0 then w2run (w2set fuel) w (w.progs c) c v 0 else w
      w1.put c v

/-- `Record<P>::set` for a two-field record whose fields are the two
cells (dynamic.tpp 246-270 with `T` a record type): the unchanged
check compares the whole payload; the notification pass covers the
record's own listeners and parent (here: a root record with neither);
then the disabler is incremented and `underlying = newValue` runs the
member-wise `Field::operator=` of both fields — nested `set` calls
that execute under the raised disabler — before the disabler is
restored. -/
def w2setPair (fuel : Nat) (w : W2) (a b : Int) : W2 :=
  if w.v0 = a ∧ w.v1 = b then w
  else
    let w1 := { w with dis := w.dis + 1 }
    let w2 := w2set fuel w1 false a
    let w3 := w2set fuel w2 true b
    { w3 with dis := w3.dis - 1 }

/-! ## Decimal child names (`std::to_string`) -/

/-- The decimal digit character for `d` (`'0'` + d). -/
def digitChar (d : Nat) : Char := Char.ofNat (48 + d)

/-- Decimal digits of `n`, least significant first, with a structural
fuel bound (`n` itself has at most `n + 1` digits). -/
def natDecAux : Nat → Nat → List Char
  | 0, _ => []
  | fuel + 1, n =>
    if n < 10 then [digitChar n]
    else digitChar (n % 10) :: natDecAux fuel (n / 10)

/-- Decimal digits of `n`, least significant first. -/
def natDecRev (n : Nat) : List Char := natDecAux (n + 1) n

/-- `std::to_string` on an unsigned index: the decimal digit string of
`n`, most significant first. -/
def natDec (n : Nat) : Seg := (natDecRev n).reverse

/-- Numeric value of a least-significant-first digit string (used to
invert `natDecRev`). -/
def decValRev : List Char → Nat
  | [] => 0
  | c :: rest => (c.toNat - 48) + 10 * decValRev rest

/-! ## The dynamic array (`Array<T>`)

An array is its ordered element payloads, its live direct "array"
listeners, and the ancestor chain of child-listener frames — whose
head is the array's *own* frame, since `Array<T>::callListeners`
starts child propagation at `this`.  `tag` is the array's identity
(`*this`, reported as `parentOfChangedValue`). -/

structure ArrSt : Type where
  tag : Nat
  elems : List Int
  arrayListeners : List Nat
  chain : List Frame
deriving DecidableEq

/-- The arguments an array listener is invoked with:
`(Operation, Array<T> const&, T const& newValue, std::size_t idx)`,
tagged with the listener identity; `obsLen` is the element count the
listener observes on the array at invocation time. -/
structure AEvent : Type where
  listener : Nat
  op : Op
  val : Int
  idx : Nat
  obsLen : Nat
deriving DecidableEq

/-- `Array<T>::callListeners` (dynamic.tpp 738-750): invoke every (live)
array listener with `(op, *this, newValue, idx)`, then start child
propagation at `this` with the one-segment path `to_string(idx)`,
`*this` as parent-of-changed-value, and a detached copy of the value. -/
def Arr.callListeners (a : ArrSt) (op : Op) (v : Int) (idx : Nat) :
    List AEvent × List CEvent :=
  (a.arrayListeners.map (fun l => ⟨l, op, v, idx, a.elems.length⟩),
    callChildListeners a.chain [natDec idx] op a.tag v)

/-- `Array<T>::addElement` (dynamic.tpp 621-633): notify with `add`, the
new element and `elements.size()` (the index the element is about to
occupy) *before* appending it. -/
def Arr.addElement (a : ArrSt) (v : Int) : ArrSt × (List AEvent × List CEvent) :=
  let evs := Arr.callListeners a .add v a.elems.length
  ({ a with elems := a.elems ++ [v] }, evs)

/-- `Array<T>::removeElement` (dynamic.tpp 635-641): after asserting
`idx < elements.size()`, notify with `remove`, the element being
removed — and `elements.size()` as the index argument — *before*
erasing it.  (Note the index argument: the source passes
`elements.size()`, not `idx`.) -/
def Arr.removeElement (a : ArrSt) (idx : Nat) : ArrSt × (List AEvent × List CEvent) :=
  let evs := Arr.callListeners a .remove (a.elems.getD idx 0) a.elems.length
  ({ a with elems := a.elems.eraseIdx idx }, evs)

/-- `Array<T>::Element::name` (dynamic.tpp 725-730): the element's
current position in the element vector (`this - elements.data()`),
rendered in decimal with `std::to_string`.  The names of an array's
children, in child order. -/
def Arr.childNames (a : ArrSt) : List Seg :=
  (List.range a.elems.length).map natDec

/-- One array mutation through the public entry points. -/
inductive ArrMut : Type where
  | add : Int → ArrMut
  | rem : Nat → ArrMut
deriving DecidableEq

/-- Apply a mutation, dropping the notifications. -/
def Arr.applyMut (a : ArrSt) : ArrMut → ArrSt
  | .add v => (Arr.addElement a v).1
  | .rem idx => (Arr.removeElement a idx).1

/-- `Array<T>::Array(Array const&)` (dynamic.tpp 601-607) over
`Object::Object(Object const&)` and `Value::Value(Value const&)`
(dynamic.cpp 43, 81): the element payloads are copied one by one, the
array-listener set is default-constructed empty, the child-listener set
is default-constructed empty and the parent pointer is null — so the
copy's propagation chain is its own empty frame alone.  `newTag` is
the fresh identity of the copy. -/
def Arr.copy (a : ArrSt) (newTag : Nat) : ArrSt :=
  { tag := newTag, elems := a.elems, arrayListeners := [],
    chain := [⟨newTag, [], []⟩] }

/-! ## The dynamic map (`Map<T>`)

An entry holds its key (`fieldName`), its payload and the live direct
value listeners of its wrapped element.  The map carries its entries in
insertion order, its live direct "map" listeners, its ancestor chain
(head = the map's own frame) and the thread's disabler value, which the
in-place update path consults. -/

structure MElem : Type where
  key : Seg
  value : Int
  listeners : List Nat
deriving DecidableEq

structure MapSt : Type where
  tag : Nat
  elems : List MElem
  mapListeners : List Nat
  chain : List Frame
  disabler : Nat
deriving DecidableEq

/-- The arguments a map listener is invoked with:
`(Operation, Map<T> const&, T const& newValue, std::string_view key)`,
tagged with the listener identity. -/
structure MEvent : Type where
  listener : Nat
  op : Op
  val : Int
  key : Seg
deriving DecidableEq

/-- `Map<T>::callListeners` (dynamic.tpp 1001-1013): invoke every (live)
map listener, then start child propagation at `this` with the
one-segment path `key`. -/
def Mp.callListeners (m : MapSt) (op : Op) (v : Int) (key : Seg) :
    List MEvent × List CEvent :=
  (m.mapListeners.map (fun l => ⟨l, op, v, key⟩),
    callChildListeners m.chain [key] op m.tag v)

/-- `std::find_if` over the entries by key. -/
def Mp.lookup : List MElem → Seg → Option MElem
  | [], _ => none
  | e :: rest, k => if e.key == k then some e else Mp.lookup rest k

/-- Write `v` into the first entry with key `k`, in place. -/
def Mp.updateFirst : List MElem → Seg → Int → List MElem
  | [], _, _ => []
  | e :: rest, k, v =>
    if e.key == k then { e with value := v } :: rest
    else e :: Mp.updateFirst rest k v

/-- `Map<T>::addElement` (dynamic.tpp 867-878): when an entry with the
key already exists, assign the new value to it through
`Element::operator=(T const&)` — i.e. through the element's ordinary
`Fundamental<T>::set` path (unchanged-skip, then, with the disabler at
zero, the element's direct listeners and child propagation from the
map upward with operation `modify`) — and return.  Otherwise notify
with `add` *before* appending the new entry (which starts with no
listeners of its own).  Events returned: map-listener invocations,
element direct-listener invocations, child-listener invocations. -/
def Mp.addElement (m : MapSt) (key : Seg) (v : Int) :
    MapSt × (List MEvent × List (Nat × Int) × List CEvent) :=
  match Mp.lookup m.elems key with
  | some e =>
    if e.value = v then (m, ([], [], []))
    else
      let evs :=
        if m.disabler = 0 then
          (e.listeners.map (fun l => (l, v)),
            callChildListeners m.chain [key] .modify m.tag v)
        else ([], [])
      ({ m with elems := Mp.updateFirst m.elems key v }, ([], evs.1, evs.2))
  | none =>
    let evs := Mp.callListeners m .add v key
    ({ m with elems := m.elems ++ [⟨key, v, []⟩] }, (evs.1, [], evs.2))

/-- `Map<T>::Map(Map const&)` (dynamic.tpp 847-853): every entry is
rebuilt from its key and payload (`elements.emplace_back(elem.fieldName,
*this, elem())`), so element listeners are not carried over either; the
map-listener set, child-listener set and parent are all fresh. -/
def Mp.copy (m : MapSt) (newTag : Nat) : MapSt :=
  { tag := newTag, elems := m.elems.map (fun e => ⟨e.key, e.value, []⟩),
    mapListeners := [], chain := [⟨newTag, [], []⟩], disabler := m.disabler }

/-- `Fundamental<T>::Fundamental(Fundamental const&)` (dynamic.tpp 208)
over `Value::Value(Value const&)` (dynamic.cpp 43): the payload is
copied, the value-listener set is default-initialised empty and the
parent pointer is null. -/
def Cell.copy (c : CellSt) : CellSt :=
  { value := c.value, name := c.name, listeners := [], chain := [],
    disabler := c.disabler }

/-! # Lemmas and claim theorems -/

/-! ## Path serialisation (claims C6, C10) -/

theorem toString_nil : ID.toString [] = [] := rfl

theorem toString_single (s : Seg) : ID.toString [s] = s := by
  simp [ID.toString]

theorem toString_cons (s : Seg) (p : ID) (hp : p ≠ []) :
    ID.toString (s :: p) = s ++ '/' :: ID.toString p := by
  have hflat : List.flatten (p.map (fun t => t ++ ['/'])) ≠ [] := by
    cases p with
    | nil => exact absurd rfl hp
    | cons t q => simp
  unfold ID.toString
  rw [List.map_cons, List.flatten_cons,
    List.dropLast_append_of_ne_nil _ hflat, List.append_assoc]
  rfl

theorem fromString_ne_nil (s : Seg) (hs : s ≠ []) : ID.fromString s ≠ [] := by
  cases s with
  | nil => exact absurd rfl hs
  | cons c rest =>
    by_cases h : c = '/'
    · simp [ID.fromString, h]
    · cases hrec : ID.fromString rest with
      | nil => simp [ID.fromString, h, hrec]
      | cons t q => simp [ID.fromString, h, hrec]

theorem fromString_cons_ne (c : Char) (rest : Seg) (hc : c ≠ '/') :
    ID.fromString (c :: rest) =
      match ID.fromString rest with
      | [] => [[c]]
      | s :: ss => (c :: s) :: ss := by
  rw [ID.fromString]
  simp [hc]

theorem fromString_no_slash (s : Seg) (hs : s ≠ []) (h : '/' ∉ s) :
    ID.fromString s = [s] := by
  induction s with
  | nil => exact absurd rfl hs
  | cons c rest ih =>
    have hc : c ≠ '/' := fun hc => h (hc ▸ List.mem_cons_self c rest)
    rw [fromString_cons_ne c rest hc]
    cases rest with
    | nil => rfl
    | cons d q =>
      have hrest : ID.fromString (d :: q) = [d :: q] :=
        ih (List.cons_ne_nil d q) (fun hm => h (List.mem_cons_of_mem c hm))
      rw [hrest]

theorem fromString_append_slash (s t : Seg) (h : '/' ∉ s) :
    ID.fromString (s ++ '/' :: t) = s :: ID.fromString t := by
  induction s with
  | nil => simp [ID.fromString]
  | cons c rest ih =>
    have hc : c ≠ '/' := fun hc => h (hc ▸ List.mem_cons_self c rest)
    have hrest := ih (fun hm => h (List.mem_cons_of_mem c hm))
    have hne : ID.fromString (rest ++ '/' :: t) ≠ [] :=
      fromString_ne_nil _ (by simp)
    cases hcase : ID.fromString (rest ++ '/' :: t) with
    | nil => exact absurd hcase hne
    | cons u q =>
      rw [hcase] at hrest
      cases hrest
      rw [List.cons_append, fromString_cons_ne c _ hc, hcase]

theorem fromString_toString (p : ID) (h : ∀ s ∈ p, s ≠ [] ∧ '/' ∉ s) :
    ID.fromString (ID.toString p) = p := by
  induction p with
  | nil => rfl
  | cons s q ih =>
    obtain ⟨hs, hslash⟩ := h s (List.mem_cons_self s q)
    cases q with
    | nil => rw [toString_single]; exact fromString_no_slash s hs hslash
    | cons t r =>
      rw [toString_cons s (t :: r) (List.cons_ne_nil t r),
        fromString_append_slash _ _ hslash,
        ih (fun u hu => h u (List.mem_cons_of_mem s hu))]

theorem lastIsSlash_cons (c : Char) (l : Seg) (hl : l ≠ []) :
    lastIsSlash (c :: l) = lastIsSlash l := by
  cases l with
  | nil => exact absurd rfl hl
  | cons d q => rfl

theorem lastIsSlash_append (x t : Seg) (ht : t ≠ []) :
    lastIsSlash (x ++ t) = lastIsSlash t := by
  induction x with
  | nil => rfl
  | cons c q ih =>
    rw [List.cons_append, lastIsSlash_cons c (q ++ t) (by simp [ht]), ih]

theorem hasDoubleSlash_cons_of_cons (c d : Char) (l : Seg)
    (h : hasDoubleSlash (c :: d :: l) = false) : hasDoubleSlash (d :: l) = false := by
  have : ((c == '/' && d == '/') || hasDoubleSlash (d :: l)) = false := h
  exact (Bool.or_eq_false_iff.mp this).2

theorem hasDoubleSlash_suffix (x t : Seg) (h : hasDoubleSlash (x ++ t) = false) :
    hasDoubleSlash t = false := by
  induction x with
  | nil => exact h
  | cons c q ih =>
    rw [List.cons_append] at h
    apply ih
    cases hq : q ++ t with
    | nil => rfl
    | cons d l =>
      rw [hq] at h
      exact hasDoubleSlash_cons_of_cons c d l h

theorem exists_slash_split (s : Seg) (h : '/' ∈ s) :
    ∃ a t, s = a ++ '/' :: t ∧ '/' ∉ a := by
  induction s with
  | nil => cases h
  | cons c rest ih =>
    by_cases hc : c = '/'
    · exact ⟨[], rest, by rw [hc]; rfl, by simp⟩
    · have hrest : '/' ∈ rest := by
        cases List.mem_cons.mp h with
        | inl h1 => exact absurd h1.symm hc
        | inr h2 => exact h2
      obtain ⟨a, t, hst, ha⟩ := ih hrest
      exact ⟨c :: a, t, by rw [hst]; rfl, by simp [ha, Ne.symm hc]⟩

theorem toString_fromString_aux : ∀ (n : Nat) (s : Seg), s.length ≤ n →
    firstIsSlash s = false → lastIsSlash s = false → hasDoubleSlash s = false →
    ID.toString (ID.fromString s) = s := by
  intro n
  induction n with
  | zero =>
    intro s hlen _ _ _
    have : s = [] := List.eq_nil_of_length_eq_zero (Nat.le_zero.mp hlen)
    subst this; rfl
  | succ n ih =>
    intro s hlen hfirst hlast hdouble
    by_cases hnil : s = []
    · subst hnil; rfl
    by_cases hmem : '/' ∈ s
    · obtain ⟨a, t, hst, ha⟩ := exists_slash_split s hmem
      subst hst
      have hane : a ≠ [] := by
        intro h0
        subst h0
        simp [firstIsSlash] at hfirst
      have htne : t ≠ [] := by
        intro h0
        subst h0
        rw [show a ++ ['/'] = a ++ ['/'] from rfl,
          lastIsSlash_append a ['/'] (by simp)] at hlast
        simp [lastIsSlash] at hlast
      have hdt : hasDoubleSlash ('/' :: t) = false := hasDoubleSlash_suffix a _ hdouble
      have hft : firstIsSlash t = false := by
        cases t with
        | nil => rfl
        | cons d q =>
          by_cases hd : d = '/'
          · subst hd; rw [hasDoubleSlash] at hdt; simp at hdt
          · simp [firstIsSlash, hd]
      have hlt : lastIsSlash t = false := by
        rw [show a ++ '/' :: t = (a ++ ['/']) ++ t by simp] at hlast
        rw [← lastIsSlash_append (a ++ ['/']) t htne]
        exact hlast
      have hdt2 : hasDoubleSlash t = false :=
        hasDoubleSlash_suffix ['/'] t hdt
      have hlent : t.length ≤ n := by
        have := hlen
        simp [List.length_append] at this
        omega
      rw [fromString_append_slash a t ha,
        toString_cons a _ (fromString_ne_nil t htne),
        ih t hlent hft hlt hdt2]
    · rw [fromString_no_slash s hnil hmem, toString_single]

/-- C6 (as stated) is false: a non-empty segment may itself contain a
slash, and then serialising splits it.  At the concrete one-segment
path `["a/b"]` — whose single segment is non-empty — serialising and
re-parsing yields the two-segment path `["a", "b"]`. -/
theorem C6_counterexample :
    (['a', '/', 'b'] : Seg) ≠ [] ∧
    ID.fromString (ID.toString [['a', '/', 'b']]) = [['a'], ['b']] ∧
    ([['a'], ['b']] : ID) ≠ [['a', '/', 'b']] := by
  refine ⟨by decide, ?_, by decide⟩
  rfl

/-- C6, amended: the round-trip `fromString (toString p) = p` holds for
every path whose segments are non-empty *and slash-free*; and
`toString (fromString s) = s` holds for every string with no leading,
trailing or doubled slash. -/
theorem C6_path_roundtrip :
    (∀ p : ID, (∀ s ∈ p, s ≠ [] ∧ '/' ∉ s) →
      ID.fromString (ID.toString p) = p) ∧
    (∀ s : Seg, firstIsSlash s = false → lastIsSlash s = false →
      hasDoubleSlash s = false → ID.toString (ID.fromString s) = s) :=
  ⟨fromString_toString,
    fun s => toString_fromString_aux s.length s (Nat.le_refl _)⟩

theorem C6_path_roundtrip_witness :
    ID.fromString (ID.toString [['a'], ['b', 'c']]) = [['a'], ['b', 'c']] ∧
    ID.toString (ID.fromString ['a', '/', 'b', 'c']) = ['a', '/', 'b', 'c'] :=
  ⟨C6_path_roundtrip.1 [['a'], ['b', 'c']] (by decide),
    C6_path_roundtrip.2 ['a', '/', 'b', 'c'] (by decide) (by decide) (by decide)⟩

/-- C10: parsing the empty string yields the path with zero segments —
not a single empty segment — serialising the empty path yields the
empty string, and the empty path denotes the receiver itself in
`getchild`. -/
theorem C10_empty_path :
    ID.fromString [] = [] ∧ ID.toString [] = [] ∧
    ∀ v : DVal, v.getchild [] = v :=
  ⟨rfl, rfl, fun _ => rfl⟩

/-! ## Path lookup (claim C7) -/

theorem child_of_not_struct (v : DVal) (nm : Seg) (h : v.isStruct = false) :
    v.child nm = .invalid := by
  cases v with
  | invalid => rfl
  | prim n => rfl
  | node fs => simp [DVal.isStruct] at h

theorem walkSpec_invalid (p : ID) : DVal.invalid.walkSpec p = .invalid := by
  induction p with
  | nil => rfl
  | cons nm rest ih => rw [DVal.walkSpec]; exact ih

theorem walkSpec_not_struct (p : ID) (v : DVal) (hv : v.isStruct = false)
    (hp : p ≠ []) : v.walkSpec p = .invalid := by
  cases p with
  | nil => exact absurd rfl hp
  | cons nm rest =>
    rw [DVal.walkSpec, child_of_not_struct v nm hv]
    exact walkSpec_invalid rest

theorem getchild_eq_walkSpec (p : ID) : ∀ v : DVal, v.getchild p = v.walkSpec p := by
  induction p with
  | nil => intro v; rfl
  | cons nm rest ih =>
    intro v
    rw [DVal.getchild, DVal.walkSpec]
    by_cases hrest : rest = []
    · subst hrest; simp [DVal.walkSpec]
    · simp only [hrest, ne_eq, not_false_eq_true, if_true]
      by_cases hstruct : (v.child nm).isStruct = true
      · simp only [hstruct, not_true_eq_false, if_neg, ite_false]
        exact ih (v.child nm)
      · have hf : (v.child nm).isStruct = false := Bool.eq_false_iff.mpr hstruct
        simp only [hf, Bool.false_eq_true, not_false_eq_true, if_true]
        exact (walkSpec_not_struct rest (v.child nm) hf hrest).symm

/-- C7: `getchild` walks its path one segment at a time through by-name
child lookup (it agrees with the one-lookup-per-segment walk
everywhere), returns the receiver for the empty path, returns the
`Invalid` sentinel — a value, not null, with `isValid() = false` — as
soon as a segment is not found or an intermediate segment names a
non-structured value, and at the concrete record
`{ field ↦ 7 }` the lookup of `"nonexistent/field"` is the sentinel. -/
theorem C7_getchild_total_safety :
    (∀ (v : DVal) (p : ID), v.getchild p = v.walkSpec p) ∧
    (∀ v : DVal, v.getchild [] = v) ∧
    (∀ (v : DVal) (nm : Seg) (rest : ID), rest ≠ [] →
      (v.child nm).isStruct = false → v.getchild (nm :: rest) = .invalid) ∧
    (∀ (v : DVal) (nm : Seg) (rest : ID), rest ≠ [] →
      v.child nm = .invalid → v.getchild (nm :: rest) = .invalid) ∧
    (∀ (fs : List (Seg × DVal)) (nm : Seg),
      (DVal.node fs).getchild [nm] = (DVal.node fs).child nm) ∧
    DVal.isValid .invalid = false ∧
    (DVal.node [(['f', 'i', 'e', 'l', 'd'], DVal.prim 7)]).getchild
      (ID.fromString
        ['n', 'o', 'n', 'e', 'x', 'i', 's', 't', 'e', 'n', 't', '/',
          'f', 'i', 'e', 'l', 'd']) = .invalid := by
  refine ⟨fun v p => getchild_eq_walkSpec p v, fun v => rfl, ?_, ?_, fun fs nm => ?_,
    rfl, rfl⟩
  · intro v nm rest hrest hns
    rw [DVal.getchild]
    simp [hrest, hns]
  · intro v nm rest hrest hinv
    rw [DVal.getchild]
    simp [hrest, hinv, DVal.isStruct]
  · rw [DVal.getchild]
    simp

theorem C7_getchild_total_safety_witness :
    (DVal.node [(['x'], DVal.prim 1)]).getchild [['x'], ['y']] = .invalid ∧
    (DVal.node [(['x'], DVal.prim 1)]).getchild [['z'], ['y']] = .invalid :=
  ⟨C7_getchild_total_safety.2.2.1 _ ['x'] [['y']] (by decide) rfl,
    C7_getchild_total_safety.2.2.2.1 _ ['z'] [['y']] (by decide) rfl⟩

/-! ## Upward propagation (claim C1) -/

theorem accPath_cons (nm : Seg) (names : List Seg) (k : Nat) (id : ID) :
    accPath (nm :: names) (k + 1) id = accPath names k (nm :: id) := by
  unfold accPath
  rw [List.take_succ_cons, List.reverse_cons, List.append_assoc]
  rfl

/-- The propagation pass, in closed form: the `k`-th ancestor's
listeners each fire exactly once, in chain order, with the path made of
the `k` names below that ancestor prepended to the originating path,
and with the originating operation, parent and value unchanged. -/
theorem callChildListeners_closed (chain : List Frame) :
    ∀ (id : ID) (op : Op) (p : Nat) (v : Int),
      callChildListeners chain id op p v =
        (List.range chain.length).flatMap (fun k =>
          (chain.getD k default).listeners.map
            (fun l => ⟨l, accPath (chain.map Frame.name) k id, op, p, v⟩)) := by
  induction chain with
  | nil => intro id op p v; rfl
  | cons f rest ih =>
    intro id op p v
    rw [callChildListeners, List.length_cons, List.range_succ_eq_map,
      List.flatMap_cons, List.flatMap_map, ih (f.name :: id) op p v]
    have h0 : accPath ((f :: rest).map Frame.name) 0 id = id := rfl
    rw [h0]
    congr 1
    apply List.flatMap_congr
    intro k _
    simp [List.map_cons, List.getD_cons_succ, accPath_cons]

theorem callChildListeners_count (chain : List Frame) :
    ∀ (id : ID) (op : Op) (p : Nat) (v : Int) (l : Nat),
      (callChildListeners chain id op p v).countP (fun e => e.listener == l) =
        (chain.map (fun f => f.listeners.count l)).sum := by
  induction chain with
  | nil => intro id op p v l; rfl
  | cons f rest ih =>
    intro id op p v l
    rw [callChildListeners, List.countP_append, List.countP_map,
      ih (f.name :: id) op p v l, List.map_cons, List.sum_cons,
      List.count_eq_countP]
    rfl

theorem callChildListeners_same_op_parent_val (chain : List Frame) :
    ∀ (id : ID) (op : Op) (p : Nat) (v : Int),
      ∀ e ∈ callChildListeners chain id op p v,
        e.op = op ∧ e.parent = p ∧ e.val = v := by
  induction chain with
  | nil => intro id op p v e he; cases he
  | cons f rest ih =>
    intro id op p v e he
    rw [callChildListeners] at he
    cases List.mem_append.mp he with
    | inl h1 =>
      obtain ⟨l, _, hl⟩ := List.mem_map.mp h1
      subst hl; exact ⟨rfl, rfl, rfl⟩
    | inr h2 => exact ih (f.name :: id) op p v e h2

/-- C1: every ancestor's subtree listeners fire exactly once per
notification pass — once per registration, with the path accumulated
from that ancestor down to the changed node, the unmodified operation
and value, and the *direct container* of the changed value as the
parent argument (the closed form and the two general conjuncts).
Concretely, for a three-level record `A.B.C` (frames tagged 1 and 2,
subtree listeners 10 on `A` and 20 on `B`): a top-level `set` of leaf
`C` to 42 fires `A`'s listener exactly once with path `"B/C"`,
operation `modify`, value 42 and parent `B` (tag 2, the direct
container, not `A`), and `B`'s listener once with path `"C"`; a
top-level wholesale `set` of `B` fires `A`'s listener once with path
`"B"` and parent `A` (tag 1, the direct container of `B`). -/
theorem C1_propagation :
    (∀ (chain : List Frame) (id : ID) (op : Op) (p : Nat) (v : Int),
      callChildListeners chain id op p v =
        (List.range chain.length).flatMap (fun k =>
          (chain.getD k default).listeners.map
            (fun l => ⟨l, accPath (chain.map Frame.name) k id, op, p, v⟩))) ∧
    (∀ (chain : List Frame) (id : ID) (op : Op) (p : Nat) (v : Int) (l : Nat),
      (callChildListeners chain id op p v).countP (fun e => e.listener == l) =
        (chain.map (fun f => f.listeners.count l)).sum) ∧
    (∀ (chain : List Frame) (id : ID) (op : Op) (p : Nat) (v : Int),
      ∀ e ∈ callChildListeners chain id op p v,
        e.op = op ∧ e.parent = p ∧ e.val = v) ∧
    (set_copy ⟨0, ['C'], [], [⟨2, ['B'], [20]⟩, ⟨1, ['A'], [10]⟩], 0⟩ 42).2.2 =
      [⟨20, [['C']], .modify, 2, 42⟩, ⟨10, [['B'], ['C']], .modify, 2, 42⟩] ∧
    ID.toString [['B'], ['C']] = ['B', '/', 'C'] ∧
    (set_copy ⟨0, ['B'], [], [⟨1, ['A'], [10]⟩], 0⟩ 7).2.2 =
      [⟨10, [['B']], .modify, 1, 7⟩] ∧
    ID.toString [['B']] = ['B'] := by
  refine ⟨fun chain => callChildListeners_closed chain,
    fun chain => callChildListeners_count chain,
    fun chain => callChildListeners_same_op_parent_val chain,
    by decide, by decide, by decide, by decide⟩

/-! ## Unchanged-skip on scalar writes (claim C2) -/

/-- C2 (as stated) is false: the move overload of `set` — the path
taken by move assignment — performs no unchanged-comparison, so setting
a cell to its current value through it still invokes its direct
listeners.  Concretely: a cell holding 5 with one listener (id 3),
move-set to 5 at top level, invokes that listener. -/
theorem C2_counterexample :
    (⟨5, ['x'], [3], [], 0⟩ : CellSt).value = 5 ∧
    (set_move ⟨5, ['x'], [3], [], 0⟩ 5).2.1 = [(3, 5)] ∧
    (set_move ⟨5, ['x'], [3], [], 0⟩ 5).2.1 ≠ [] := by
  refine ⟨rfl, rfl, by decide⟩

/-- C2, amended: the copy overload of `set` (hence copy assignment)
skips everything when the new value compares equal — exactly for the
integral/bool/string/Path kinds, within epsilon for the floating
kinds — and `mutate` skips exactly when the mutated copy is *exactly*
equal (its `!=` comparison is exact even for floating payloads); the
move overload of `set` (hence move assignment) performs no such check
and notifies unconditionally.  Setting to a different value at top
level (recursion disabler at zero) invokes each direct listener exactly
once, in registration order, with the new value. -/
theorem C2_unchanged_skip :
    (∀ (c : CellSt) (v : Int), c.value = v → set_copy c v = (c, ([], []))) ∧
    (∀ (c : CellSt) (f : Int → Int), f c.value = c.value →
      mutate c f = (c, ([], []))) ∧
    (∀ (eps : ℚ) (c : FCellSt) (v : ℚ), |c.value - v| ≤ eps →
      fset_copy eps c v = (c, [])) ∧
    (∀ (c : CellSt) (v : Int), c.value ≠ v → c.disabler = 0 →
      (set_copy c v).1.value = v ∧
      (set_copy c v).2.1 = c.listeners.map (fun l => (l, v))) ∧
    (∀ (c : CellSt) (v : Int), c.disabler = 0 →
      (set_move c v).2.1 = c.listeners.map (fun l => (l, v))) := by
  refine ⟨?_, ?_, ?_, ?_, ?_⟩
  · intro c v h
    simp [set_copy, h]
  · intro c f h
    simp [mutate, h]
  · intro eps c v h
    simp [fset_copy, h]
  · intro c v hne hdis
    simp [set_copy, hne, hdis, cellNotify, fundamentalCallListeners]
  · intro c v hdis
    simp [set_move, hdis, cellNotify, fundamentalCallListeners]

theorem C2_unchanged_skip_witness :
    set_copy ⟨5, ['x'], [3], [], 0⟩ 5 = (⟨5, ['x'], [3], [], 0⟩, ([], [])) ∧
    mutate ⟨5, ['x'], [3], [], 0⟩ (fun n => n * 1) = (⟨5, ['x'], [3], [], 0⟩, ([], [])) ∧
    fset_copy (1/2) ⟨2, [4], 0⟩ (9/4) = (⟨2, [4], 0⟩, []) ∧
    ((set_copy ⟨5, ['x'], [3], [], 0⟩ 6).1.value = 6 ∧
      (set_copy ⟨5, ['x'], [3], [], 0⟩ 6).2.1 = [(3, 6)]) ∧
    (set_move ⟨5, ['x'], [3], [], 0⟩ 6).2.1 = [(3, 6)] :=
  ⟨C2_unchanged_skip.1 ⟨5, ['x'], [3], [], 0⟩ 5 rfl,
    C2_unchanged_skip.2.1 ⟨5, ['x'], [3], [], 0⟩ (fun n => n * 1) (by decide),
    C2_unchanged_skip.2.2.1 (1/2) ⟨2, [4], 0⟩ (9/4) (by rw [abs_le]; norm_num),
    C2_unchanged_skip.2.2.2.1 ⟨5, ['x'], [3], [], 0⟩ 6 (by decide) rfl,
    C2_unchanged_skip.2.2.2.2 ⟨5, ['x'], [3], [], 0⟩ 6 rfl⟩

/-! ## The recursion disabler (claim C5) -/

theorem w2put_dis (w : W2) (c : Bool) (v : Int) : (w.put c v).dis = w.dis := by
  cases c <;> rfl

theorem w2put_log (w : W2) (c : Bool) (v : Int) : (w.put c v).log = w.log := by
  cases c <;> rfl

theorem w2run_dis (setter : W2 → Bool → Int → W2)
    (hs : ∀ w c v, (setter w c v).dis = w.dis) :
    ∀ (ps : List LProg) (w : W2) (c : Bool) (v : Int) (i : Nat),
      (w2run setter w ps c v i).dis = w.dis := by
  intro ps
  induction ps with
  | nil => intro w c v i; rfl
  | cons p rest ih =>
    intro w c v i
    cases p with
    | nop => rw [show w2run setter w (.nop :: rest) c v i =
        w2run setter { w with log := w.log ++ [(c, i, v)] } rest c v (i + 1) from rfl, ih]
    | wr tgt nv => rw [show w2run setter w (.wr tgt nv :: rest) c v i =
        w2run setter (setter { w with log := w.log ++ [(c, i, v)] } tgt nv) rest c v (i + 1)
        from rfl, ih, hs]

theorem w2set_dis : ∀ (fuel : Nat) (w : W2) (c : Bool) (v : Int),
    (w2set fuel w c v).dis = w.dis := by
  intro fuel
  induction fuel with
  | zero => intro w c v; rfl
  | succ n ih =>
    intro w c v
    rw [w2set]
    by_cases hg : w.get c = v
    · rw [if_pos hg]
    · rw [if_neg hg]
      by_cases hd : w.dis = 0
      · rw [if_pos hd, w2put_dis, w2run_dis (w2set n) ih]
      · rw [if_neg hd, w2put_dis]

theorem w2set_silent_of_dis_pos (fuel : Nat) (w : W2) (c : Bool) (v : Int)
    (h : w.dis ≠ 0) : (w2set fuel w c v).log = w.log := by
  cases fuel with
  | zero => rfl
  | succ n =>
    rw [w2set]
    by_cases hg : w.get c = v
    · rw [if_pos hg]
    · rw [if_neg hg, if_neg h, w2put_log]

theorem w2set_false_facts (n : Nat) (w : W2) (a : Int) (h : w.dis ≠ 0) :
    (w2set (n + 1) w false a).v0 = a ∧ (w2set (n + 1) w false a).v1 = w.v1 ∧
    (w2set (n + 1) w false a).dis = w.dis ∧ (w2set (n + 1) w false a).log = w.log := by
  rw [w2set]
  by_cases hg : w.get false = a
  · rw [if_pos hg]
    exact ⟨hg, rfl, rfl, rfl⟩
  · rw [if_neg hg, if_neg h]
    exact ⟨rfl, rfl, rfl, rfl⟩

theorem w2set_true_facts (n : Nat) (w : W2) (b : Int) (h : w.dis ≠ 0) :
    (w2set (n + 1) w true b).v1 = b ∧ (w2set (n + 1) w true b).v0 = w.v0 ∧
    (w2set (n + 1) w true b).dis = w.dis ∧ (w2set (n + 1) w true b).log = w.log := by
  rw [w2set]
  by_cases hg : w.get true = b
  · rw [if_pos hg]
    exact ⟨hg, rfl, rfl, rfl⟩
  · rw [if_neg hg, if_neg h]
    exact ⟨rfl, rfl, rfl, rfl⟩

/-- A record-wide `set` applies its member-field writes silently: the
fields are written during `underlying = newValue`, which runs under the
raised disabler, so no field listener fires, and the counter is
restored on exit. -/
theorem w2setPair_silent (n : Nat) (w : W2) (a b : Int) :
    (w2setPair (n + 1) w a b).log = w.log ∧ (w2setPair (n + 1) w a b).dis = w.dis ∧
    (w2setPair (n + 1) w a b).v0 = a ∧ (w2setPair (n + 1) w a b).v1 = b := by
  unfold w2setPair
  by_cases hab : w.v0 = a ∧ w.v1 = b
  · rw [if_pos hab]
    exact ⟨rfl, rfl, hab.1, hab.2⟩
  · rw [if_neg hab]
    dsimp only
    have h1 : ({ w with dis := w.dis + 1 } : W2).dis ≠ 0 := by simp
    obtain ⟨f0, f1, fd, fl⟩ := w2set_false_facts n { w with dis := w.dis + 1 } a h1
    have h2 : (w2set (n + 1) { w with dis := w.dis + 1 } false a).dis ≠ 0 := by
      rw [fd]; simp
    obtain ⟨t1, t0, td, tl⟩ :=
      w2set_true_facts n (w2set (n + 1) { w with dis := w.dis + 1 } false a) b h2
    refine ⟨?_, ?_, ?_, ?_⟩
    · rw [tl, fl]
    · rw [td, fd]
      simp
    · rw [t0, f0]
    · rw [t1]

/-- C5 (as stated) is false: the disabler is incremented only *after*
`callListeners` has returned, so a write performed from within a
listener callback observes the counter at zero and fires notifications
like any top-level write.  Concretely: cell 0 (value 0) carries one
listener that writes 5 into cell 1; cell 1 (value 0) carries one
listener.  A top-level `set` of cell 0 to 1 runs cell 0's listener,
whose nested write of cell 1 — underneath the in-flight notification
chain — both applies (cell 1 becomes 5) and invokes cell 1's listener:
the log ends with the invocation `(cell 1, listener 0, value 5)`. -/
theorem C5_counterexample :
    (w2set 2 ⟨0, 0, [.wr true 5], [.nop], 0, []⟩ false 1).log =
      [(false, 0, 1), (true, 0, 5)] ∧
    (w2set 2 ⟨0, 0, [.wr true 5], [.nop], 0, []⟩ false 1).v1 = 5 ∧
    (w2set 2 ⟨0, 0, [.wr true 5], [.nop], 0, []⟩ false 1).v0 = 1 ∧
    ((true, 0, 5) : Bool × Nat × Int) ∈
      (w2set 2 ⟨0, 0, [.wr true 5], [.nop], 0, []⟩ false 1).log := by
  refine ⟨rfl, rfl, rfl, by decide⟩

/-- C5, amended: the disabler is raised only for the duration of the
storage assignment (`underlying = newValue`), *after* the notification
pass has completed.  Consequently (1) every write restores the counter
on exit; (2) a write entered with the counter already raised — i.e. a
write nested inside the storage assignment of an enclosing write, such
as the member-field writes of a record-wide `set` — is applied to
storage silently, firing nothing; but (3) a write performed from
within a listener callback observes the counter at zero and *does*
notify: only writes nested in storage assignment, not writes nested in
notification, are suppressed. -/
theorem C5_recursion_disabler :
    (∀ (fuel : Nat) (w : W2) (c : Bool) (v : Int),
      (w2set fuel w c v).dis = w.dis) ∧
    (∀ (fuel : Nat) (w : W2) (c : Bool) (v : Int), w.dis ≠ 0 →
      (w2set fuel w c v).log = w.log) ∧
    (∀ (n : Nat) (w : W2) (a b : Int),
      (w2setPair (n + 1) w a b).log = w.log ∧
      (w2setPair (n + 1) w a b).dis = w.dis ∧
      (w2setPair (n + 1) w a b).v0 = a ∧ (w2setPair (n + 1) w a b).v1 = b) ∧
    (w2set 2 ⟨0, 0, [.wr true 5], [.nop], 0, []⟩ false 1).log =
      [(false, 0, 1), (true, 0, 5)] :=
  ⟨w2set_dis, w2set_silent_of_dis_pos, w2setPair_silent, rfl⟩

theorem C5_recursion_disabler_witness :
    (w2set 3 ⟨7, 8, [.nop], [], 4, []⟩ false 9).log = [] :=
  C5_recursion_disabler.2.1 3 ⟨7, 8, [.nop], [], 4, []⟩ false 9 (by decide)

/-! ## Array removal notification (claim C3)

The claim is what both the spec and the header documentation promise
("listeners are notified with the operation type, the affected element,
and its index"); the implementation of `removeElement`, however, passes
`elements.size()` — not `idx` — as the index argument of
`callListeners`, so both the direct array listeners and the propagated
child path report the (pre-removal) element count instead of the
removed index. -/

/-- C3 at the spec's own concrete input: an array `[10, 20, 30]` with
one array listener (id 5) and one child listener on itself (id 9);
`removeElement(1)`.  Afterwards the elements are `[10, 30]` with child
names `"0"`, `"1"`; the notification fires before the erase (the
listener observes 3 elements) and carries the removed value 20 — but
its index argument is 3 (`elements.size()`), not the removed index 1,
and the propagated child path is `"3"`, the name of no child. -/
theorem C3_remove_notification :
    (Arr.removeElement ⟨0, [10, 20, 30], [5], [⟨0, [], [9]⟩]⟩ 1).1.elems = [10, 30] ∧
    Arr.childNames (Arr.removeElement ⟨0, [10, 20, 30], [5], [⟨0, [], [9]⟩]⟩ 1).1 =
      [['0'], ['1']] ∧
    (Arr.removeElement ⟨0, [10, 20, 30], [5], [⟨0, [], [9]⟩]⟩ 1).2.1 =
      [⟨5, .remove, 20, 3, 3⟩] ∧
    (Arr.removeElement ⟨0, [10, 20, 30], [5], [⟨0, [], [9]⟩]⟩ 1).2.2 =
      [⟨9, [['3']], .remove, 0, 20⟩] ∧
    (3 : Nat) ≠ 1 := by
  refine ⟨rfl, rfl, rfl, rfl, by decide⟩

/-! ## Map upsert (claim C4) -/

/-- C4 (as stated) is false: updating an existing key in place goes
through the element's ordinary `set` path, which — when the value
actually changes — notifies: the map's subtree (child) listeners
receive a `modify` notification for the updated entry.  Concretely, on
a map with one child listener (id 7), `addElement("k", 1)` then
`addElement("k", 2)` fires a `modify` child notification for the
second call — not "no notification at all". -/
theorem C4_counterexample :
    (Mp.addElement (Mp.addElement ⟨0, [], [], [⟨0, ['m'], [7]⟩], 0⟩ ['k'] 1).1
      ['k'] 2).2.2.2 = [⟨7, [['k']], .modify, 0, 2⟩] ∧
    (Mp.addElement (Mp.addElement ⟨0, [], [], [⟨0, ['m'], [7]⟩], 0⟩ ['k'] 1).1
      ['k'] 2).2.2.2 ≠ [] := by
  refine ⟨rfl, by decide⟩

theorem lookup_clean (elems : List MElem) (k : Seg) (e : MElem)
    (h : Mp.lookup (elems.map (fun x => ⟨x.key, x.value, []⟩)) k = some e) :
    e.listeners = [] := by
  induction elems with
  | nil => cases h
  | cons x rest ih =>
    rw [List.map_cons, Mp.lookup] at h
    by_cases hk : x.key == k
    · rw [if_pos hk] at h
      cases h
      rfl
    · rw [if_neg hk] at h
      exact ih h

theorem updateFirst_keys (elems : List MElem) (k : Seg) (v : Int) :
    (Mp.updateFirst elems k v).map MElem.key = elems.map MElem.key := by
  induction elems with
  | nil => rfl
  | cons x rest ih =>
    rw [Mp.updateFirst]
    by_cases hk : x.key == k
    · rw [if_pos hk]
      rfl
    · rw [if_neg hk, List.map_cons, List.map_cons, ih]

theorem updateFirst_value (elems : List MElem) (k : Seg) (v : Int) (e : MElem)
    (h : Mp.lookup elems k = some e) :
    Mp.lookup (Mp.updateFirst elems k v) k = some ⟨e.key, v, e.listeners⟩ := by
  induction elems with
  | nil => cases h
  | cons x rest ih =>
    rw [Mp.lookup] at h
    rw [Mp.updateFirst]
    by_cases hk : x.key == k
    · rw [if_pos hk] at h
      cases h
      rw [if_pos hk, Mp.lookup, if_pos hk]
    · rw [if_neg hk] at h
      rw [if_neg hk, Mp.lookup, if_neg hk]
      exact ih h

/-- C4, amended: adding an existing key updates the entry in place —
the map's element list keeps its keys and order, no `add` fires and
the map's own (map-level) listeners are not invoked at all — and the
sequence `addElement("k", v1); addElement("k", v2)` on a fresh map
leaves one entry holding `v2` with exactly one `add` notification per
map listener, fired by the first call only.  However the in-place
update runs through the element's ordinary `set` path: with an
unchanged value nothing fires, but with a changed value (at top level)
the element's direct listeners and the subtree (child) listeners are
invoked with operation `modify`. -/
theorem C4_upsert :
    (∀ (m : MapSt) (k : Seg) (v : Int) (e : MElem), Mp.lookup m.elems k = some e →
      (Mp.addElement m k v).1.elems.map MElem.key = m.elems.map MElem.key ∧
      (Mp.addElement m k v).2.1 = [] ∧
      (∀ ev ∈ (Mp.addElement m k v).2.2.2, ev.op = Op.modify) ∧
      (e.value = v → Mp.addElement m k v = (m, ([], [], [])))) ∧
    (∀ (tag : Nat) (mls : List Nat) (chain : List Frame) (k : Seg) (v1 v2 : Int),
      (Mp.addElement (⟨tag, [], mls, chain, 0⟩ : MapSt) k v1).2.1 =
        mls.map (fun l => ⟨l, .add, v1, k⟩) ∧
      (Mp.addElement (Mp.addElement (⟨tag, [], mls, chain, 0⟩ : MapSt) k v1).1
          k v2).2.1 = [] ∧
      (Mp.addElement (Mp.addElement (⟨tag, [], mls, chain, 0⟩ : MapSt) k v1).1
          k v2).1.elems.map MElem.value = [v2] ∧
      (Mp.addElement (Mp.addElement (⟨tag, [], mls, chain, 0⟩ : MapSt) k v1).1
          k v2).1.elems.map MElem.key = [k]) := by
  constructor
  · intro m k v e hl
    rw [Mp.addElement, hl]
    dsimp only
    by_cases hv : e.value = v
    · rw [if_pos hv]
      refine ⟨rfl, rfl, ?_, fun _ => rfl⟩
      intro ev hev
      exact absurd hev (List.not_mem_nil ev)
    · rw [if_neg hv]
      refine ⟨updateFirst_keys m.elems k v, rfl, ?_, fun h => absurd h hv⟩
      intro ev hev
      by_cases hd : m.disabler = 0
      · rw [if_pos hd] at hev
        dsimp only at hev
        exact (callChildListeners_same_op_parent_val m.chain [k] .modify m.tag v
          ev hev).1
      · rw [if_neg hd] at hev
        cases hev
  · intro tag mls chain k v1 v2
    have h1 : Mp.addElement (⟨tag, [], mls, chain, 0⟩ : MapSt) k v1 =
        (⟨tag, [⟨k, v1, []⟩], mls, chain, 0⟩,
          (mls.map (fun l => ⟨l, .add, v1, k⟩), [],
            callChildListeners chain [k] .add tag v1)) := rfl
    have h2 : Mp.lookup [(⟨k, v1, []⟩ : MElem)] k = some ⟨k, v1, []⟩ := by
      rw [Mp.lookup, if_pos (by simp)]
    have h3 : Mp.addElement (⟨tag, [⟨k, v1, []⟩], mls, chain, 0⟩ : MapSt) k v2 =
        if v1 = v2 then (⟨tag, [⟨k, v1, []⟩], mls, chain, 0⟩, ([], [], []))
        else (⟨tag, Mp.updateFirst [⟨k, v1, []⟩] k v2, mls, chain, 0⟩,
          ([], [], callChildListeners chain [k] .modify tag v2)) := by
      rw [Mp.addElement, h2]
      dsimp only
      by_cases hv : v1 = v2
      · rw [if_pos hv, if_pos hv]
      · rw [if_neg hv, if_neg hv, if_pos rfl]
        rfl
    have h4 : Mp.updateFirst [(⟨k, v1, []⟩ : MElem)] k v2 = [⟨k, v2, []⟩] := by
      rw [Mp.updateFirst, if_pos (by simp)]
    rw [h1]
    dsimp only
    rw [h3]
    by_cases hv : v1 = v2
    · rw [if_pos hv]
      exact ⟨rfl, rfl, by simp [hv], by simp⟩
    · rw [if_neg hv]
      exact ⟨rfl, rfl, by rw [h4]; rfl, by rw [h4]; rfl⟩

theorem C4_upsert_witness :
    ((Mp.addElement ⟨0, [⟨['k'], 1, []⟩], [4], [], 0⟩ ['k'] 1) =
      (⟨0, [⟨['k'], 1, []⟩], [4], [], 0⟩, ([], [], []))) ∧
    (Mp.addElement ⟨0, [⟨['k'], 1, []⟩], [4], [], 0⟩ ['k'] 2).2.1 = [] :=
  ⟨(C4_upsert.1 ⟨0, [⟨['k'], 1, []⟩], [4], [], 0⟩ ['k'] 1 ⟨['k'], 1, []⟩
      (by simp [Mp.lookup])).2.2.2 rfl,
    (C4_upsert.1 ⟨0, [⟨['k'], 1, []⟩], [4], [], 0⟩ ['k'] 2 ⟨['k'], 1, []⟩
      (by simp [Mp.lookup])).2.1⟩

/-! ## Array child names (claim C8) -/

theorem digitChar_toNat (d : Nat) (h : d < 10) : (digitChar d).toNat = 48 + d := by
  interval_cases d <;> rfl

theorem decValRev_natDecAux : ∀ (fuel n : Nat), n < fuel →
    decValRev (natDecAux fuel n) = n := by
  intro fuel
  induction fuel with
  | zero => intro n h; omega
  | succ m ih =>
    intro n h
    rw [natDecAux]
    by_cases h10 : n < 10
    · rw [if_pos h10, decValRev, decValRev, digitChar_toNat n h10]
      omega
    · have hdivlt : n / 10 < n := Nat.div_lt_self (by omega) (by omega)
      rw [if_neg h10, decValRev, digitChar_toNat (n % 10) (Nat.mod_lt n (by omega)),
        ih (n / 10) (by omega)]
      omega

theorem decValRev_natDecRev (n : Nat) : decValRev (natDecRev n) = n :=
  decValRev_natDecAux (n + 1) n (Nat.lt_succ_self n)

theorem natDec_injective : Function.Injective natDec := by
  intro a b h
  have h2 : natDecRev a = natDecRev b := by
    have h1 := congrArg List.reverse h
    simpa [natDec] using h1
  have h3 := congrArg decValRev h2
  rwa [decValRev_natDecRev, decValRev_natDecRev] at h3

theorem eraseIdx_getElem?_ge : ∀ (l : List Int) (k j : Nat), k ≤ j →
    (l.eraseIdx k)[j]? = l[j + 1]? := by
  intro l
  induction l with
  | nil => intro k j _; simp [List.eraseIdx]
  | cons a rest ih =>
    intro k j hkj
    cases k with
    | zero => simp [List.eraseIdx]
    | succ k' =>
      cases j with
      | zero => omega
      | succ j' =>
        rw [List.eraseIdx]
        simp only [List.getElem?_cons_succ]
        exact ih k' j' (by omega)

theorem eraseIdx_getElem?_lt : ∀ (l : List Int) (k j : Nat), j < k →
    (l.eraseIdx k)[j]? = l[j]? := by
  intro l
  induction l with
  | nil => intro k j _; simp [List.eraseIdx]
  | cons a rest ih =>
    intro k j hjk
    cases k with
    | zero => omega
    | succ k' =>
      cases j with
      | zero => rw [List.eraseIdx]; simp
      | succ j' =>
        rw [List.eraseIdx]
        simp only [List.getElem?_cons_succ]
        exact ih k' j' (by omega)

/-- C8: the child names of an array are always, whatever mutations
produced it, exactly the decimal strings of `0 .. size()-1` in index
order — as many names as elements, the `k`-th being `to_string(k)`,
and pairwise distinct (no gaps, no repeats) — because each element's
name is recomputed from its current position.  `addElement` appends,
and removing index `k` erases it and shifts every later element one
position down, so the element formerly named `to_string(j+1)` (for
`j ≥ k`) is afterwards the one named `to_string(j)`. -/
theorem C8_array_child_names :
    (∀ a : ArrSt,
      (Arr.childNames a).length = a.elems.length ∧
      (Arr.childNames a).Nodup ∧
      (∀ k, k < a.elems.length → (Arr.childNames a)[k]? = some (natDec k))) ∧
    (∀ (a : ArrSt) (v : Int), (Arr.addElement a v).1.elems = a.elems ++ [v]) ∧
    (∀ (a : ArrSt) (k : Nat), k < a.elems.length →
      (Arr.removeElement a k).1.elems.length + 1 = a.elems.length ∧
      (∀ j, j < k → (Arr.removeElement a k).1.elems[j]? = a.elems[j]?) ∧
      (∀ j, k ≤ j → (Arr.removeElement a k).1.elems[j]? = a.elems[j + 1]?)) := by
  refine ⟨fun a => ⟨?_, ?_, ?_⟩, fun a v => rfl, fun a k hk => ⟨?_, ?_, ?_⟩⟩
  · simp [Arr.childNames]
  · exact (List.nodup_range _).map natDec_injective
  · intro j hj
    simp [Arr.childNames, List.getElem?_range hj]
  · show (a.elems.eraseIdx k).length + 1 = a.elems.length
    rw [List.length_eraseIdx, if_pos hk]
    omega
  · intro j hj
    exact eraseIdx_getElem?_lt a.elems k j hj
  · intro j hj
    exact eraseIdx_getElem?_ge a.elems k j hj

theorem C8_array_child_names_witness :
    (Arr.childNames ⟨0, [10, 20, 30], [], []⟩)[2]? = some ['2'] ∧
    (Arr.removeElement ⟨0, [10, 20, 30], [], []⟩ 1).1.elems.length + 1 = 3 ∧
    (Arr.removeElement ⟨0, [10, 20, 30], [], []⟩ 1).1.elems[1]? = some 30 :=
  ⟨(C8_array_child_names.1 ⟨0, [10, 20, 30], [], []⟩).2.2 2 (by decide),
    (C8_array_child_names.2.2 ⟨0, [10, 20, 30], [], []⟩ 1 (by decide)).1,
    Eq.trans
      ((C8_array_child_names.2.2 ⟨0, [10, 20, 30], [], []⟩ 1 (by decide)).2.2 1
        (by decide)) rfl⟩

/-! ## Copies start with a clean listener set (claim C9) -/

/-- C9: copy construction copies the payloads (elements, keys, values)
but never the listener registrations: the copy of an array, a map or a
scalar cell starts with empty listener sets, no parent, and every
mutation applied to the copy produces *no* listener invocation at all
— in particular it never fires a listener registered on the
original. -/
theorem C9_copy_excludes_listeners :
    (∀ (a : ArrSt) (t : Nat),
      (Arr.copy a t).elems = a.elems ∧
      (Arr.copy a t).arrayListeners = [] ∧
      (∀ v, (Arr.addElement (Arr.copy a t) v).2 = ([], [])) ∧
      (∀ k, (Arr.removeElement (Arr.copy a t) k).2 = ([], []))) ∧
    (∀ (m : MapSt) (t : Nat),
      (Mp.copy m t).elems.map MElem.key = m.elems.map MElem.key ∧
      (Mp.copy m t).elems.map MElem.value = m.elems.map MElem.value ∧
      (Mp.copy m t).mapListeners = [] ∧
      (∀ (k : Seg) (v : Int), (Mp.addElement (Mp.copy m t) k v).2 = ([], [], []))) ∧
    (∀ c : CellSt,
      (Cell.copy c).value = c.value ∧
      (Cell.copy c).listeners = [] ∧
      (∀ v, (set_copy (Cell.copy c) v).2 = ([], [])) ∧
      (∀ v, (set_move (Cell.copy c) v).2 = ([], [])) ∧
      (∀ f, (mutate (Cell.copy c) f).2 = ([], []))) := by
  refine ⟨fun a t => ⟨rfl, rfl, fun v => rfl, fun k => rfl⟩,
    fun m t => ⟨?_, ?_, rfl, ?_⟩, fun c => ⟨rfl, rfl, ?_, ?_, ?_⟩⟩
  · simp [Mp.copy]
  · simp [Mp.copy]
  · intro k v
    rw [Mp.addElement]
    cases hl : Mp.lookup (Mp.copy m t).elems k with
    | none => rfl
    | some e =>
      have he : e.listeners = [] := lookup_clean m.elems k e hl
      dsimp only
      by_cases hv : e.value = v
      · rw [if_pos hv]
      · rw [if_neg hv]
        by_cases hd : (Mp.copy m t).disabler = 0
        · rw [if_pos hd, he]
          rfl
        · rw [if_neg hd]
  · intro v
    rw [set_copy]
    by_cases hv : (Cell.copy c).value = v
    · rw [if_pos hv]
    · rw [if_neg hv]
      by_cases hd : (Cell.copy c).disabler = 0
      · rw [if_pos hd]
        rfl
      · rw [if_neg hd]
  · intro v
    rw [set_move]
    by_cases hd : (Cell.copy c).disabler = 0
    · rw [if_pos hd]
      rfl
    · rw [if_neg hd]
  · intro f
    rw [mutate]
    by_cases hne : f (Cell.copy c).value ≠ (Cell.copy c).value
    · rw [if_pos hne]
      by_cases hd : (Cell.copy c).disabler = 0
      · rw [if_pos hd]
        rfl
      · rw [if_neg hd]
    · rw [if_neg hne]

end Dynamic
